import Mathlib

/-!
Shallow embedding of `src/main.cpp` (class `DungeonManager`).

The program keeps three shared counters `tank_queue`, `healer_queue`,
`dps_queue` (C++ `int`, modelled as `Int`) guarded by one mutex, and a
vector of `Instance` records (`is_active`, `parties_served`,
`total_time`).  Each of the `n` worker threads runs `runDungeon`:

  loop:
    lock; cv.wait(pred);            -- pred = canForm ∨ noParty
    if noParty then return          -- exit, no notify on this path
    is_active := true; tanks--; healers--; dps -= 3; unlock
    sleep rt  (rt uniform in [t1, t2])
    lock; parties_served++; total_time += rt; is_active := false
    cv.notify_one(); unlock

We model the shared state as `DState`, each worker's control position as
a `Phase`, and the interleaving of the critical sections as an inductive
step relation `Step`.  Every mutation of shared state in the source
happens inside one lock-protected region, so each such region is one
atomic step.  `notifies` counts executions of `cv.notify_one()`.
`total_time` accumulates whole seconds (the C++ `duration<double>` only
ever adds integer second counts, which double arithmetic represents
exactly in the ranges validated by `main`), so we model it as `Nat`.
-/

/-- Control position of one worker thread inside `runDungeon`. -/
inductive Phase where
  | ready : Phase
  | running : Nat → Phase
  | stopped : Phase
deriving DecidableEq, Repr

/-- One element of the `instances` vector, plus the control position of
the worker thread that owns it (`struct Instance` in the source). -/
structure Worker where
  phase : Phase
  is_active : Bool
  parties_served : Nat
  total_time : Nat
deriving DecidableEq, Repr

/-- The shared state of `DungeonManager`: the three queue counters, the
number of `cv.notify_one()` calls performed so far, and the per-worker
records. -/
structure DState where
  tank_queue : Int
  healer_queue : Int
  dps_queue : Int
  notifies : Nat
  workers : List Worker
deriving DecidableEq, Repr

/-- The validated configuration read by `main`: instance count `n`,
initial queue sizes `t`, `h`, `d`, and run-time bounds `t1 ≤ t2`
(validation in `main` guarantees all are non-negative, hence `Nat`). -/
structure Config where
  n : Nat
  t : Nat
  h : Nat
  d : Nat
  t1 : Nat
  t2 : Nat
deriving DecidableEq, Repr

/-- A freshly constructed `Instance` record with its worker at the top
of the loop. -/
def initWorker : Worker :=
  { phase := Phase.ready, is_active := false, parties_served := 0, total_time := 0 }

/-- The state right after `DungeonManager`'s constructor ran and the
worker threads were spawned (each at the top of its loop). -/
def DState.init (c : Config) : DState :=
  { tank_queue := (c.t : Int), healer_queue := (c.h : Int), dps_queue := (c.d : Int),
    notifies := 0, workers := List.replicate c.n initWorker }

/-- `tank_queue > 0 && healer_queue > 0 && dps_queue >= 3` (line 40). -/
def canForm (s : DState) : Prop :=
  0 < s.tank_queue ∧ 0 < s.healer_queue ∧ 3 ≤ s.dps_queue

/-- `tank_queue == 0 || healer_queue == 0 || dps_queue < 3`
(lines 41 and 45): the termination condition. -/
def noParty (s : DState) : Prop :=
  s.tank_queue = 0 ∨ s.healer_queue = 0 ∨ s.dps_queue < 3

instance (s : DState) : Decidable (canForm s) := by unfold canForm; infer_instance

instance (s : DState) : Decidable (noParty s) := by unfold noParty; infer_instance

/-- The predicate passed to `cv.wait` (lines 39-42), as the boolean the
lambda computes from the three counters. -/
def waitPred (t h d : Int) : Bool :=
  decide ((0 < t ∧ 0 < h ∧ 3 ≤ d) ∨ (t = 0 ∨ h = 0 ∨ d < 3))

/-- The body of the critical section of lines 45-53 as a function of the
three counters: `none` when the termination check of line 45 fires,
otherwise the decremented counters. -/
def tryReserveParty (t h d : Int) : Option (Int × Int × Int) :=
  if t = 0 ∨ h = 0 ∨ d < 3 then none else some (t - 1, h - 1, d - 3)

/-- Sum of `parties_served` over a worker list. -/
def servedOf (l : List Worker) : Nat :=
  (l.map Worker.parties_served).sum

/-- Number of workers whose `is_active` flag is set. -/
def activeOf (l : List Worker) : Nat :=
  l.countP fun w => w.is_active

/-- One atomic step of the system: each constructor is one of the three
lock-protected regions of `runDungeon`, executed by the worker standing
between `l₁` and `l₂` in the worker list.

* `exit`: the worker passes `cv.wait` (the termination disjunct of the
  predicate holds), takes the `return` of line 46.  No notify happens.
* `reserve`: the worker passes `cv.wait` with a party available and the
  line-45 check false (together: `canForm`), sets `is_active`, performs
  the 1,1,3 decrement (lines 50-53), releases the lock and starts a
  simulated run of `rt ∈ [t1, t2]` seconds (`time_dist(gen)`).
* `finish`: the sleeping worker reacquires the lock, updates its
  statistics (lines 63-65) and calls `cv.notify_one()` (line 68). -/
inductive Step (c : Config) : DState → DState → Prop where
  | exit (s : DState) (l₁ l₂ : List Worker) (w : Worker)
      (hw : s.workers = l₁ ++ w :: l₂)
      (hready : w.phase = Phase.ready)
      (hterm : noParty s) :
      Step c s { s with workers := l₁ ++ { w with phase := Phase.stopped } :: l₂ }
  | reserve (s : DState) (l₁ l₂ : List Worker) (w : Worker) (rt : Nat)
      (hw : s.workers = l₁ ++ w :: l₂)
      (hready : w.phase = Phase.ready)
      (hform : canForm s)
      (hlo : c.t1 ≤ rt) (hhi : rt ≤ c.t2) :
      Step c s { s with
        tank_queue := s.tank_queue - 1,
        healer_queue := s.healer_queue - 1,
        dps_queue := s.dps_queue - 3,
        workers := l₁ ++ { w with phase := Phase.running rt, is_active := true } :: l₂ }
  | finish (s : DState) (l₁ l₂ : List Worker) (w : Worker) (rt : Nat)
      (hw : s.workers = l₁ ++ w :: l₂)
      (hrun : w.phase = Phase.running rt) :
      Step c s { s with
        notifies := s.notifies + 1,
        workers := l₁ ++ { w with
          phase := Phase.ready, is_active := false,
          parties_served := w.parties_served + 1,
          total_time := w.total_time + rt } :: l₂ }

/-- States reachable from the initial state of configuration `c` by any
interleaving of worker steps. -/
inductive Reachable (c : Config) : DState → Prop where
  | init : Reachable c (DState.init c)
  | step {s s' : DState} : Reachable c s → Step c s s' → Reachable c s'

/-- Reflexive-transitive closure of `Step`: an execution fragment. -/
inductive Steps (c : Config) : DState → DState → Prop where
  | refl (s : DState) : Steps c s s
  | tail {s s' s'' : DState} : Steps c s s' → Step c s' s'' → Steps c s s''

/-- The control phase of worker `i`, when the index is in range. -/
def phaseAt (s : DState) (i : Nat) : Option Phase :=
  (s.workers.get? i).map Worker.phase

/-- The exit code of `main` (lines 143-166): `none` models unreadable
input, `some (n, t, h, d, t1, t2)` the six parsed integers; the guard is
line 154 verbatim. -/
def mainExitCode (input : Option (Int × Int × Int × Int × Int × Int)) : Nat :=
  match input with
  | none => 1
  | some (n, t, h, d, t1, t2) =>
      if n ≤ 0 ∨ t < 0 ∨ h < 0 ∨ d < 0 ∨ t1 < 0 ∨ t2 < 0 ∨ t2 < t1 ∨ 15 < t2 then 1
      else 0

/-! ### Concrete configurations and states used to instantiate the results -/

/-- Scenario A of the spec: `N=1, T=1, H=1, D=3, T1=T2=0`. -/
def scenarioA : Config := ⟨1, 1, 1, 3, 0, 0⟩

/-- Scenario C of the spec: `N=3, T=0, H=5, D=10, T1=0, T2=0`. -/
def scenarioC : Config := ⟨3, 0, 5, 10, 0, 0⟩

/-- State of scenario A after worker 0 reserved the only party (run time 0). -/
def c5s1 : DState := ⟨0, 0, 0, 0, [⟨Phase.running 0, true, 0, 0⟩]⟩

/-- State of scenario A after worker 0 finished its run and notified. -/
def c5s2 : DState := ⟨0, 0, 0, 1, [⟨Phase.ready, false, 1, 0⟩]⟩

/-- Terminal state of scenario A: the single worker stopped. -/
def c5s3 : DState := ⟨0, 0, 0, 1, [⟨Phase.stopped, false, 1, 0⟩]⟩

/-- A one-worker configuration with no tanks (terminal from the start). -/
def cfg4 : Config := ⟨1, 0, 5, 10, 0, 0⟩

/-- `cfg4` after its only worker took the exit branch. -/
def st4' : DState := ⟨0, 5, 10, 0, [⟨Phase.stopped, false, 0, 0⟩]⟩

/-- A two-worker configuration with no tanks: both workers must exit. -/
def cfg7 : Config := ⟨2, 0, 5, 10, 0, 0⟩

/-- `cfg7` after worker 0 took the exit branch while worker 1 is still in
its loop: `notifies` is still `0`. -/
def c7s' : DState := ⟨0, 5, 10, 0, [⟨Phase.stopped, false, 0, 0⟩, initWorker]⟩

/-- A configuration with too few dps for any party. -/
def cfg8 : Config := ⟨2, 1, 1, 2, 0, 0⟩

/-- A plain valid configuration used to instantiate universally
quantified results. -/
def cfg10 : Config := ⟨4, 7, 8, 9, 2, 5⟩

/-- Another valid configuration with two workers. -/
def cfg3 : Config := ⟨2, 3, 4, 9, 0, 2⟩

/-! ### Helper lemmas about the worker-list bookkeeping -/

lemma servedOf_decomp (l₁ l₂ : List Worker) (w : Worker) :
    servedOf (l₁ ++ w :: l₂) = servedOf l₁ + w.parties_served + servedOf l₂ := by
  simp [servedOf]
  ring

lemma activeOf_decomp (l₁ l₂ : List Worker) (w : Worker) :
    activeOf (l₁ ++ w :: l₂) =
      activeOf l₁ + (if w.is_active then 1 else 0) + activeOf l₂ := by
  simp [activeOf, List.countP_append, List.countP_cons]
  ring

lemma get?_decomp (l₁ l₂ : List Worker) (w w' : Worker) (i : Nat) :
    (l₁ ++ w' :: l₂).get? i = (l₁ ++ w :: l₂).get? i ∨
      ((l₁ ++ w :: l₂).get? i = some w ∧ (l₁ ++ w' :: l₂).get? i = some w') := by
  induction l₁ generalizing i with
  | nil =>
    cases i with
    | zero => right; simp
    | succ j => left; simp
  | cons a l ih =>
    cases i with
    | zero => left; simp
    | succ j => simpa using ih j

/-! ### The inductive invariant -/

/-- Per-worker invariant: `is_active` is set exactly while the worker is
in a simulated run; every in-flight run duration respects the
`time_dist(t1, t2)` bounds (line 76 passes `t1 ≤ t2` to the uniform
distribution); and accumulated busy time is bounded by `t2` per served
party. -/
def WInv (c : Config) (w : Worker) : Prop :=
  (w.is_active = true ↔ ∃ rt, w.phase = Phase.running rt) ∧
  (∀ rt, w.phase = Phase.running rt → c.t1 ≤ rt ∧ rt ≤ c.t2) ∧
  w.total_time ≤ c.t2 * w.parties_served

/-- Global inductive invariant of the transition system: counters are
non-negative, the worker vector keeps its size, every worker satisfies
`WInv`, each counter plus what was withdrawn from it (one per served or
in-flight party; three dps per party) equals its initial value, and if
some worker has stopped then the termination condition holds. -/
def SysInv (c : Config) (s : DState) : Prop :=
  0 ≤ s.tank_queue ∧ 0 ≤ s.healer_queue ∧ 0 ≤ s.dps_queue ∧
  s.workers.length = c.n ∧
  (∀ w ∈ s.workers, WInv c w) ∧
  s.tank_queue + ((servedOf s.workers + activeOf s.workers : Nat) : Int) = (c.t : Int) ∧
  s.healer_queue + ((servedOf s.workers + activeOf s.workers : Nat) : Int) = (c.h : Int) ∧
  s.dps_queue + 3 * ((servedOf s.workers + activeOf s.workers : Nat) : Int) = (c.d : Int) ∧
  ((∃ w ∈ s.workers, w.phase = Phase.stopped) → noParty s)

lemma inv_init (c : Config) : SysInv c (DState.init c) := by
  have hserved : servedOf (List.replicate c.n initWorker) = 0 := by
    simp [servedOf, List.map_replicate, initWorker]
  have hactive : activeOf (List.replicate c.n initWorker) = 0 := by
    apply List.countP_eq_zero.mpr
    intro a ha
    have := List.eq_of_mem_replicate ha
    simp [this, initWorker]
  refine ⟨by simp [DState.init], by simp [DState.init], by simp [DState.init],
    by simp [DState.init], ?_, ?_, ?_, ?_, ?_⟩
  · intro w hw
    have hw' := List.eq_of_mem_replicate (by simpa [DState.init] using hw)
    subst hw'
    refine ⟨by simp [initWorker], ?_, by simp [initWorker]⟩
    intro rt hrt
    simp [initWorker] at hrt
  · simp [DState.init, hserved, hactive]
  · simp [DState.init, hserved, hactive]
  · simp [DState.init, hserved, hactive]
  · rintro ⟨w, hw, hstop⟩
    have hw' := List.eq_of_mem_replicate (by simpa [DState.init] using hw)
    subst hw'
    simp [initWorker] at hstop

lemma winv_of_mem {c : Config} {s : DState} (hInv : SysInv c s) {w : Worker}
    (hw : w ∈ s.workers) : WInv c w :=
  hInv.2.2.2.2.1 w hw

lemma not_active_of_ready {c : Config} {w : Worker} (hW : WInv c w)
    (hready : w.phase = Phase.ready) : w.is_active = false := by
  rcases hb : w.is_active with _ | _
  · rfl
  · rcases hW.1.mp hb with ⟨rt, hrt⟩
    rw [hready] at hrt
    cases hrt

lemma active_of_running {c : Config} {w : Worker} (hW : WInv c w) {rt : Nat}
    (hrun : w.phase = Phase.running rt) : w.is_active = true :=
  hW.1.mpr ⟨rt, hrun⟩

lemma noParty_not_canForm {s : DState} (h : noParty s) : ¬ canForm s := by
  rcases h with h | h | h <;> rintro ⟨h1, h2, h3⟩ <;> omega

lemma sysInv_step {c : Config} {s s' : DState} (hInv : SysInv c s)
    (hstep : Step c s s') : SysInv c s' := by
  obtain ⟨ht, hh, hd, hlen, hWI, hct, hch, hcd, hstopterm⟩ := hInv
  cases hstep with
  | exit l₁ l₂ w hw hready hterm =>
    have hWw : WInv c w := hWI w (by rw [hw]; simp)
    have hact : w.is_active = false := not_active_of_ready hWw hready
    have hS : servedOf (l₁ ++ { w with phase := Phase.stopped } :: l₂) =
        servedOf (l₁ ++ w :: l₂) := by
      rw [servedOf_decomp, servedOf_decomp]
    have hA : activeOf (l₁ ++ { w with phase := Phase.stopped } :: l₂) =
        activeOf (l₁ ++ w :: l₂) := by
      rw [activeOf_decomp, activeOf_decomp]
    refine ⟨ht, hh, hd, ?_, ?_, ?_, ?_, ?_, ?_⟩
    · show (l₁ ++ { w with phase := Phase.stopped } :: l₂).length = c.n
      rw [hw] at hlen
      simpa using hlen
    · intro w' hw'
      rcases List.mem_append.mp hw' with hmem | hmem
      · exact hWI w' (by rw [hw]; exact List.mem_append_left _ hmem)
      · rcases List.mem_cons.mp hmem with rfl | hmem
        · refine ⟨by simp [hact], ?_, hWw.2.2⟩
          intro rt hrt
          exact Phase.noConfusion hrt
        · exact hWI w'
            (by rw [hw]; exact List.mem_append_right _ (List.mem_cons_of_mem _ hmem))
    · show s.tank_queue + _ = _
      rw [hS, hA, ← hw]
      exact hct
    · show s.healer_queue + _ = _
      rw [hS, hA, ← hw]
      exact hch
    · show s.dps_queue + _ = _
      rw [hS, hA, ← hw]
      exact hcd
    · intro _
      exact hterm
  | reserve l₁ l₂ w rt hw hready hform hlo hhi =>
    obtain ⟨hft, hfh, hfd⟩ := hform
    have hWw : WInv c w := hWI w (by rw [hw]; simp)
    have hact : w.is_active = false := not_active_of_ready hWw hready
    have hS : servedOf
        (l₁ ++ { w with phase := Phase.running rt, is_active := true } :: l₂) =
        servedOf (l₁ ++ w :: l₂) := by
      rw [servedOf_decomp, servedOf_decomp]
    have hA : activeOf
        (l₁ ++ { w with phase := Phase.running rt, is_active := true } :: l₂) =
        activeOf (l₁ ++ w :: l₂) + 1 := by
      rw [activeOf_decomp, activeOf_decomp, hact]
      simp
      omega
    refine ⟨?_, ?_, ?_, ?_, ?_, ?_, ?_, ?_, ?_⟩
    · show (0 : Int) ≤ s.tank_queue - 1
      omega
    · show (0 : Int) ≤ s.healer_queue - 1
      omega
    · show (0 : Int) ≤ s.dps_queue - 3
      omega
    · show (l₁ ++ _ :: l₂).length = c.n
      rw [hw] at hlen
      simpa using hlen
    · intro w' hw'
      rcases List.mem_append.mp hw' with hmem | hmem
      · exact hWI w' (by rw [hw]; exact List.mem_append_left _ hmem)
      · rcases List.mem_cons.mp hmem with rfl | hmem
        · refine ⟨⟨fun _ => ⟨rt, rfl⟩, fun _ => rfl⟩, ?_, hWw.2.2⟩
          intro rt' hrt'
          injection hrt' with hrt'
          subst hrt'
          exact ⟨hlo, hhi⟩
        · exact hWI w'
            (by rw [hw]; exact List.mem_append_right _ (List.mem_cons_of_mem _ hmem))
    · show s.tank_queue - 1 + _ = _
      rw [hS, hA, ← hw]
      push_cast at hct ⊢
      omega
    · show s.healer_queue - 1 + _ = _
      rw [hS, hA, ← hw]
      push_cast at hch ⊢
      omega
    · show s.dps_queue - 3 + _ = _
      rw [hS, hA, ← hw]
      push_cast at hcd ⊢
      omega
    · rintro ⟨w', hw', hstop⟩
      exfalso
      rcases List.mem_append.mp hw' with hmem | hmem
      · exact noParty_not_canForm
          (hstopterm ⟨w', by rw [hw]; exact List.mem_append_left _ hmem, hstop⟩)
          ⟨hft, hfh, hfd⟩
      · rcases List.mem_cons.mp hmem with rfl | hmem
        · exact Phase.noConfusion hstop
        · exact noParty_not_canForm
            (hstopterm ⟨w',
              by rw [hw]; exact List.mem_append_right _ (List.mem_cons_of_mem _ hmem),
              hstop⟩)
            ⟨hft, hfh, hfd⟩
  | finish l₁ l₂ w rt hw hrun =>
    have hWw : WInv c w := hWI w (by rw [hw]; simp)
    have hact : w.is_active = true := active_of_running hWw hrun
    obtain ⟨hlo', hhi'⟩ := hWw.2.1 rt hrun
    have hS : servedOf (l₁ ++ { w with
        phase := Phase.ready, is_active := false,
        parties_served := w.parties_served + 1,
        total_time := w.total_time + rt } :: l₂) =
        servedOf (l₁ ++ w :: l₂) + 1 := by
      rw [servedOf_decomp, servedOf_decomp]
      show servedOf l₁ + (w.parties_served + 1) + servedOf l₂ = _
      omega
    have hA : activeOf (l₁ ++ { w with
        phase := Phase.ready, is_active := false,
        parties_served := w.parties_served + 1,
        total_time := w.total_time + rt } :: l₂) + 1 =
        activeOf (l₁ ++ w :: l₂) := by
      rw [activeOf_decomp, activeOf_decomp, hact]
      show activeOf l₁ + (if false then 1 else 0) + activeOf l₂ + 1 = _
      simp
      omega
    refine ⟨ht, hh, hd, ?_, ?_, ?_, ?_, ?_, ?_⟩
    · show (l₁ ++ _ :: l₂).length = c.n
      rw [hw] at hlen
      simpa using hlen
    · intro w' hw'
      rcases List.mem_append.mp hw' with hmem | hmem
      · exact hWI w' (by rw [hw]; exact List.mem_append_left _ hmem)
      · rcases List.mem_cons.mp hmem with rfl | hmem
        · refine ⟨by simp, ?_, ?_⟩
          · intro rt' hrt'
            exact Phase.noConfusion hrt'
          · show w.total_time + rt ≤ c.t2 * (w.parties_served + 1)
            calc w.total_time + rt ≤ c.t2 * w.parties_served + c.t2 :=
                  Nat.add_le_add hWw.2.2 hhi'
              _ = c.t2 * (w.parties_served + 1) := (Nat.mul_succ _ _).symm
        · exact hWI w'
            (by rw [hw]; exact List.mem_append_right _ (List.mem_cons_of_mem _ hmem))
    · show s.tank_queue + _ = _
      have key : servedOf (l₁ ++ { w with
          phase := Phase.ready, is_active := false,
          parties_served := w.parties_served + 1,
          total_time := w.total_time + rt } :: l₂) + activeOf (l₁ ++ { w with
          phase := Phase.ready, is_active := false,
          parties_served := w.parties_served + 1,
          total_time := w.total_time + rt } :: l₂) =
          servedOf (l₁ ++ w :: l₂) + activeOf (l₁ ++ w :: l₂) := by omega
      rw [key, ← hw]
      exact hct
    · show s.healer_queue + _ = _
      have key : servedOf (l₁ ++ { w with
          phase := Phase.ready, is_active := false,
          parties_served := w.parties_served + 1,
          total_time := w.total_time + rt } :: l₂) + activeOf (l₁ ++ { w with
          phase := Phase.ready, is_active := false,
          parties_served := w.parties_served + 1,
          total_time := w.total_time + rt } :: l₂) =
          servedOf (l₁ ++ w :: l₂) + activeOf (l₁ ++ w :: l₂) := by omega
      rw [key, ← hw]
      exact hch
    · show s.dps_queue + _ = _
      have key : servedOf (l₁ ++ { w with
          phase := Phase.ready, is_active := false,
          parties_served := w.parties_served + 1,
          total_time := w.total_time + rt } :: l₂) + activeOf (l₁ ++ { w with
          phase := Phase.ready, is_active := false,
          parties_served := w.parties_served + 1,
          total_time := w.total_time + rt } :: l₂) =
          servedOf (l₁ ++ w :: l₂) + activeOf (l₁ ++ w :: l₂) := by omega
      rw [key, ← hw]
      exact hcd
    · rintro ⟨w', hw', hstop⟩
      rcases List.mem_append.mp hw' with hmem | hmem
      · exact hstopterm ⟨w', by rw [hw]; exact List.mem_append_left _ hmem, hstop⟩
      · rcases List.mem_cons.mp hmem with rfl | hmem
        · exact Phase.noConfusion hstop
        · exact hstopterm ⟨w',
            by rw [hw]; exact List.mem_append_right _ (List.mem_cons_of_mem _ hmem),
            hstop⟩

lemma sysInv_reachable {c : Config} {s : DState} (h : Reachable c s) : SysInv c s := by
  induction h with
  | init => exact inv_init c
  | step _ hstep ih => exact sysInv_step ih hstep

/-! ### Per-step analysis lemmas -/

lemma step_pool {c : Config} {s s' : DState} (hstep : Step c s s') :
    (s'.tank_queue = s.tank_queue ∧ s'.healer_queue = s.healer_queue ∧
      s'.dps_queue = s.dps_queue) ∨
    (canForm s ∧ s'.tank_queue = s.tank_queue - 1 ∧
      s'.healer_queue = s.healer_queue - 1 ∧ s'.dps_queue = s.dps_queue - 3) := by
  cases hstep with
  | exit l₁ l₂ w hw hready hterm => exact Or.inl ⟨rfl, rfl, rfl⟩
  | reserve l₁ l₂ w rt hw hready hform hlo hhi => exact Or.inr ⟨hform, rfl, rfl, rfl⟩
  | finish l₁ l₂ w rt hw hrun => exact Or.inl ⟨rfl, rfl, rfl⟩

lemma noParty_step {c : Config} {s s' : DState} (hnp : noParty s)
    (hstep : Step c s s') : noParty s' := by
  rcases step_pool hstep with ⟨e1, e2, e3⟩ | ⟨hform, _, _, _⟩
  · unfold noParty at hnp ⊢
    rw [e1, e2, e3]
    exact hnp
  · exact absurd hform (noParty_not_canForm hnp)

lemma phaseAt_step {c : Config} {s s' : DState} (hstep : Step c s s') (i : Nat) :
    phaseAt s' i = phaseAt s i ∨
    (phaseAt s i = some Phase.ready ∧ phaseAt s' i = some Phase.stopped ∧
      noParty s ∧ s'.notifies = s.notifies) ∨
    (∃ rt, phaseAt s i = some Phase.ready ∧ phaseAt s' i = some (Phase.running rt) ∧
      canForm s ∧ c.t1 ≤ rt ∧ rt ≤ c.t2 ∧ s'.notifies = s.notifies) ∨
    (∃ rt, phaseAt s i = some (Phase.running rt) ∧ phaseAt s' i = some Phase.ready ∧
      s'.notifies = s.notifies + 1) := by
  cases hstep with
  | exit l₁ l₂ w hw hready hterm =>
    rcases get?_decomp l₁ l₂ w { w with phase := Phase.stopped } i with
      hsame | ⟨hold, hnew⟩
    · left
      show ((l₁ ++ { w with phase := Phase.stopped } :: l₂).get? i).map Worker.phase =
        (s.workers.get? i).map Worker.phase
      rw [hw, hsame]
    · right; left
      refine ⟨?_, ?_, hterm, rfl⟩
      · show (s.workers.get? i).map Worker.phase = some Phase.ready
        rw [hw, hold]
        simp [hready]
      · show ((l₁ ++ { w with phase := Phase.stopped } :: l₂).get? i).map Worker.phase =
          some Phase.stopped
        rw [hnew]
        simp
  | reserve l₁ l₂ w rt hw hready hform hlo hhi =>
    rcases get?_decomp l₁ l₂ w
        { w with phase := Phase.running rt, is_active := true } i with
      hsame | ⟨hold, hnew⟩
    · left
      show ((l₁ ++ { w with phase := Phase.running rt, is_active := true } :: l₂).get? i).map
          Worker.phase = (s.workers.get? i).map Worker.phase
      rw [hw, hsame]
    · right; right; left
      refine ⟨rt, ?_, ?_, hform, hlo, hhi, rfl⟩
      · show (s.workers.get? i).map Worker.phase = some Phase.ready
        rw [hw, hold]
        simp [hready]
      · show ((l₁ ++ { w with phase := Phase.running rt, is_active := true } :: l₂).get? i).map
            Worker.phase = some (Phase.running rt)
        rw [hnew]
        simp
  | finish l₁ l₂ w rt hw hrun =>
    have hdec := get?_decomp l₁ l₂ w { w with phase := Phase.ready, is_active := false, parties_served := w.parties_served + 1, total_time := w.total_time + rt } i
    rcases hdec with hsame | ⟨hold, hnew⟩
    · left
      show ((l₁ ++ { w with phase := Phase.ready, is_active := false, parties_served := w.parties_served + 1, total_time := w.total_time + rt } :: l₂).get? i).map Worker.phase = (s.workers.get? i).map Worker.phase
      rw [hw, hsame]
    · right; right; right
      refine ⟨rt, ?_, ?_, rfl⟩
      · show (s.workers.get? i).map Worker.phase = some (Phase.running rt)
        rw [hw, hold]
        simp [hrun]
      · show ((l₁ ++ { w with phase := Phase.ready, is_active := false, parties_served := w.parties_served + 1, total_time := w.total_time + rt } :: l₂).get? i).map Worker.phase = some Phase.ready
        rw [hnew]
        simp

/-! ### Claim theorems -/

/-- C1: in every reachable state of the system, under any interleaving
of worker steps, the three pool counters `tank_queue`, `healer_queue`
and `dps_queue` are non-negative: the (1,1,3) decrement happens only
under the `canForm` guard, so no operation drives a counter negative. -/
theorem c1_counters_never_negative (c : Config) (s : DState) (h : Reachable c s) :
    0 ≤ s.tank_queue ∧ 0 ≤ s.healer_queue ∧ 0 ≤ s.dps_queue :=
  ⟨(sysInv_reachable h).1, (sysInv_reachable h).2.1, (sysInv_reachable h).2.2.1⟩

theorem c1_witness :
    0 ≤ (DState.init cfg10).tank_queue ∧ 0 ≤ (DState.init cfg10).healer_queue ∧
      0 ≤ (DState.init cfg10).dps_queue :=
  c1_counters_never_negative cfg10 (DState.init cfg10) Reachable.init

/-- C2: the reservation critical section behaves as a dichotomy on
non-negative counters: when at least one tank, one healer and three dps
are available it decrements them by (1,1,3) and forms a party; otherwise
the termination condition `t = 0 ∨ h = 0 ∨ d < 3` holds and it returns
no-party with the pool unchanged; and a worker that has taken the
no-party exit stays stopped in every subsequent step. -/
theorem c2_reservation_dichotomy (t h d : Int) (ht : 0 ≤ t) (hh : 0 ≤ h) (hd : 0 ≤ d) :
    (1 ≤ t ∧ 1 ≤ h ∧ 3 ≤ d → tryReserveParty t h d = some (t - 1, h - 1, d - 3)) ∧
    (¬(1 ≤ t ∧ 1 ≤ h ∧ 3 ≤ d) →
      (t = 0 ∨ h = 0 ∨ d < 3) ∧ tryReserveParty t h d = none) ∧
    (∀ (c : Config) (s s' : DState) (i : Nat), Step c s s' →
      phaseAt s i = some Phase.stopped → phaseAt s' i = some Phase.stopped) := by
  refine ⟨?_, ?_, ?_⟩
  · intro hform
    simp only [tryReserveParty]
    rw [if_neg (by omega)]
  · intro hno
    have hcond : t = 0 ∨ h = 0 ∨ d < 3 := by omega
    refine ⟨hcond, ?_⟩
    simp only [tryReserveParty]
    rw [if_pos hcond]
  · intro c s s' i hstep hstop
    rcases phaseAt_step hstep i with hsame | ⟨h1, _⟩ | ⟨rt, h1, _⟩ | ⟨rt, h1, _⟩
    · rw [hsame, hstop]
    · rw [hstop] at h1
      simp at h1
    · rw [hstop] at h1
      simp at h1
    · rw [hstop] at h1
      simp at h1

theorem c2_witness :
    tryReserveParty 1 1 3 = some (0, 0, 0) ∧ tryReserveParty 1 0 3 = none := by
  constructor
  · have h := (c2_reservation_dichotomy 1 1 3 (by decide) (by decide) (by decide)).1
      (by decide)
    simpa using h
  · exact ((c2_reservation_dichotomy 1 0 3 (by decide) (by decide) (by decide)).2.1
      (by decide)).2

/-- C9: `main` rejects exactly the inputs violating
`N>0, T≥0, H≥0, D≥0, T1≥0, T2≥0, T1≤T2, T2≤15` (or unreadable input),
exiting with status 1; on valid input that runs to completion it exits
with status 0. -/
theorem c9_validation (input : Option (Int × Int × Int × Int × Int × Int)) :
    (mainExitCode input = 0 ↔ ∃ n t h d t1 t2, input = some (n, t, h, d, t1, t2) ∧
      0 < n ∧ 0 ≤ t ∧ 0 ≤ h ∧ 0 ≤ d ∧ 0 ≤ t1 ∧ 0 ≤ t2 ∧ t1 ≤ t2 ∧ t2 ≤ 15) ∧
    (mainExitCode input = 0 ∨ mainExitCode input = 1) := by
  constructor
  · constructor
    · intro h0
      rcases input with _ | ⟨n, t, h, d, t1, t2⟩
      · simp [mainExitCode] at h0
      · refine ⟨n, t, h, d, t1, t2, rfl, ?_⟩
        by_cases hc : n ≤ 0 ∨ t < 0 ∨ h < 0 ∨ d < 0 ∨ t1 < 0 ∨ t2 < 0 ∨ t2 < t1 ∨ 15 < t2
        · simp only [mainExitCode] at h0
          rw [if_pos hc] at h0
          exact absurd h0 one_ne_zero
        · omega
    · rintro ⟨n, t, h, d, t1, t2, rfl, hb⟩
      simp only [mainExitCode]
      rw [if_neg (by omega)]
  · rcases input with _ | ⟨n, t, h, d, t1, t2⟩
    · right; rfl
    · simp only [mainExitCode]
      split
      · right; rfl
      · left; rfl

/-- C10: the `cv.wait` predicate is a tautology whenever the three
counters are non-negative — in particular in every reachable state — so
the wait never blocks: every reservation attempt decides party-formed
versus no-party immediately from the current counters. -/
theorem c10_wait_never_blocks (c : Config) (s : DState) (hs : Reachable c s) :
    waitPred s.tank_queue s.healer_queue s.dps_queue = true ∧
    (∀ x y z : Int, 0 ≤ x → 0 ≤ y → 0 ≤ z → waitPred x y z = true) := by
  have hgen : ∀ x y z : Int, 0 ≤ x → 0 ≤ y → 0 ≤ z → waitPred x y z = true := by
    intro x y z hx hy hz
    simp only [waitPred, decide_eq_true_eq]
    omega
  have hi := sysInv_reachable hs
  exact ⟨hgen _ _ _ hi.1 hi.2.1 hi.2.2.1, hgen⟩

theorem c10_witness :
    waitPred (DState.init cfg3).tank_queue (DState.init cfg3).healer_queue
      (DState.init cfg3).dps_queue = true :=
  (c10_wait_never_blocks cfg3 (DState.init cfg3) Reachable.init).1

/-- C3: in every reachable quiescent state (no instance `is_active`; in
particular every terminal snapshot), each initial counter minus its
final value equals the total `parties_served` over all instances (three
times that total for dps): each formed party withdrew exactly one tank,
one healer and three dps, with no double-spending. -/
theorem c3_conservation (c : Config) (s : DState) (h : Reachable c s)
    (hq : ∀ w ∈ s.workers, w.is_active = false) :
    (c.t : Int) - s.tank_queue = (servedOf s.workers : Int) ∧
    (c.h : Int) - s.healer_queue = (servedOf s.workers : Int) ∧
    (c.d : Int) - s.dps_queue = 3 * (servedOf s.workers : Int) := by
  obtain ⟨_, _, _, _, _, hct, hch, hcd, _⟩ := sysInv_reachable h
  have hA : activeOf s.workers = 0 := by
    apply List.countP_eq_zero.mpr
    intro w hw
    simp [hq w hw]
  rw [hA] at hct hch hcd
  push_cast at hct hch hcd ⊢
  exact ⟨by omega, by omega, by omega⟩

theorem c3_witness :
    (cfg3.t : Int) - (DState.init cfg3).tank_queue =
      (servedOf (DState.init cfg3).workers : Int) ∧
    (cfg3.h : Int) - (DState.init cfg3).healer_queue =
      (servedOf (DState.init cfg3).workers : Int) ∧
    (cfg3.d : Int) - (DState.init cfg3).dps_queue =
      3 * (servedOf (DState.init cfg3).workers : Int) :=
  c3_conservation cfg3 (DState.init cfg3) Reachable.init (by decide)

/-- C4: no worker ever stops while a party could still form: whenever a
step takes worker `i` from `ready` to `stopped`, the state it left
satisfied the termination condition, and `tanks ≥ 1 ∧ healers ≥ 1 ∧
dps ≥ 3` did not hold there. -/
theorem c4_no_false_termination (c : Config) (s s' : DState) (i : Nat)
    (hstep : Step c s s') (hready : phaseAt s i = some Phase.ready)
    (hstop : phaseAt s' i = some Phase.stopped) :
    noParty s ∧ ¬ canForm s := by
  rcases phaseAt_step hstep i with hsame | ⟨_, _, hterm, _⟩ | ⟨rt, _, hrun, _⟩ |
    ⟨rt, hr, _⟩
  · rw [hsame, hready] at hstop
    simp at hstop
  · exact ⟨hterm, noParty_not_canForm hterm⟩
  · rw [hstop] at hrun
    simp at hrun
  · rw [hready] at hr
    simp at hr

lemma c4step : Step cfg4 (DState.init cfg4) st4' :=
  Step.exit (DState.init cfg4) [] [] initWorker rfl rfl (by decide)

theorem c4_witness : noParty (DState.init cfg4) ∧ ¬ canForm (DState.init cfg4) :=
  c4_no_false_termination cfg4 (DState.init cfg4) st4' 0 c4step (by decide) (by decide)

/-- C8: the counters are never incremented — every step either leaves
the pool unchanged or performs the (1,1,3) decrement — and the
termination condition is monotone: once `noParty` holds it holds in
every subsequent state of the execution. -/
theorem c8_monotone_termination (c : Config) (s s' : DState) :
    (Step c s s' →
      (s'.tank_queue ≤ s.tank_queue ∧ s'.healer_queue ≤ s.healer_queue ∧
        s'.dps_queue ≤ s.dps_queue) ∧
      ((s'.tank_queue = s.tank_queue ∧ s'.healer_queue = s.healer_queue ∧
          s'.dps_queue = s.dps_queue) ∨
        (s'.tank_queue = s.tank_queue - 1 ∧ s'.healer_queue = s.healer_queue - 1 ∧
          s'.dps_queue = s.dps_queue - 3))) ∧
    (noParty s → Steps c s s' → noParty s') := by
  constructor
  · intro hstep
    rcases step_pool hstep with ⟨e1, e2, e3⟩ | ⟨_, e1, e2, e3⟩
    · exact ⟨⟨le_of_eq e1, le_of_eq e2, le_of_eq e3⟩, Or.inl ⟨e1, e2, e3⟩⟩
    · exact ⟨⟨by omega, by omega, by omega⟩, Or.inr ⟨e1, e2, e3⟩⟩
  · intro hnp hsteps
    induction hsteps with
    | refl => exact hnp
    | tail _ hstep ih => exact noParty_step ih hstep

theorem c8_witness : noParty (DState.init cfg8) :=
  (c8_monotone_termination cfg8 (DState.init cfg8) (DState.init cfg8)).2
    (by decide) (Steps.refl (DState.init cfg8))

/-- C5: for configuration `N=1, T=1, H=1, D=3, T1=T2=0`, every reachable
state in which every worker has stopped has the single instance at
`parties_served = 1` and `total_time = 0`, and all three queues at 0:
exactly one party was formed. -/
theorem c5_scenario_a (s : DState) (h : Reachable scenarioA s)
    (hstop : ∀ w ∈ s.workers, w.phase = Phase.stopped) :
    s.workers = [⟨Phase.stopped, false, 1, 0⟩] ∧
    s.tank_queue = 0 ∧ s.healer_queue = 0 ∧ s.dps_queue = 0 := by
  obtain ⟨ht, hh, hd, hlen, hWI, hct, hch, hcd, hstopterm⟩ := sysInv_reachable h
  obtain ⟨w, hws⟩ := List.length_eq_one.mp hlen
  have hmem : w ∈ s.workers := by rw [hws]; simp
  have hstopw : w.phase = Phase.stopped := hstop w hmem
  have hW := hWI w hmem
  have hact : w.is_active = false := by
    rcases hb : w.is_active with _ | _
    · rfl
    · rcases hW.1.mp hb with ⟨rt, hrt⟩
      rw [hstopw] at hrt
      cases hrt
  have hnp : noParty s := hstopterm ⟨w, hmem, hstopw⟩
  rw [hws] at hct hch hcd
  have hserved : servedOf [w] = w.parties_served := by simp [servedOf]
  have hactive : activeOf [w] = 0 := by simp [activeOf, hact]
  rw [hserved, hactive] at hct hch hcd
  have hT : ((scenarioA.t : Nat) : Int) = 1 := rfl
  have hH : ((scenarioA.h : Nat) : Int) = 1 := rfl
  have hD : ((scenarioA.d : Nat) : Int) = 3 := rfl
  rw [hT] at hct
  rw [hH] at hch
  rw [hD] at hcd
  unfold noParty at hnp
  have hps : w.parties_served = 1 := by
    push_cast at hct hch hcd
    omega
  have htime : w.total_time = 0 := by
    have hb := hW.2.2
    have h2 : scenarioA.t2 = 0 := rfl
    rw [h2] at hb
    omega
  refine ⟨?_, ?_, ?_, ?_⟩
  · rw [hws]
    obtain ⟨wp, wa, wps, wt⟩ := w
    simp_all
  · push_cast at hct
    omega
  · push_cast at hch
    omega
  · push_cast at hcd
    omega

lemma c5step1 : Step scenarioA (DState.init scenarioA) c5s1 :=
  Step.reserve (DState.init scenarioA) [] [] initWorker 0 rfl rfl
    (by decide) (by decide) (by decide)

lemma c5step2 : Step scenarioA c5s1 c5s2 :=
  Step.finish c5s1 [] [] ⟨Phase.running 0, true, 0, 0⟩ 0 rfl rfl

lemma c5step3 : Step scenarioA c5s2 c5s3 :=
  Step.exit c5s2 [] [] ⟨Phase.ready, false, 1, 0⟩ rfl rfl (by decide)

lemma c5reach : Reachable scenarioA c5s3 :=
  Reachable.step (Reachable.step (Reachable.step Reachable.init c5step1) c5step2)
    c5step3

theorem c5_witness :
    c5s3.workers = [⟨Phase.stopped, false, 1, 0⟩] ∧
    c5s3.tank_queue = 0 ∧ c5s3.healer_queue = 0 ∧ c5s3.dps_queue = 0 :=
  c5_scenario_a c5s3 c5reach (by decide)

lemma c6_invariant (c : Config) (hterm : noParty (DState.init c)) :
    ∀ s, Reachable c s →
      s.tank_queue = (c.t : Int) ∧ s.healer_queue = (c.h : Int) ∧
      s.dps_queue = (c.d : Int) ∧
      ∀ w ∈ s.workers, w.parties_served = 0 ∧ w.is_active = false ∧
        w.total_time = 0 ∧ (w.phase = Phase.ready ∨ w.phase = Phase.stopped) := by
  intro s h
  induction h with
  | init =>
    refine ⟨rfl, rfl, rfl, ?_⟩
    intro w hw
    have hw' : w = initWorker := List.eq_of_mem_replicate hw
    subst hw'
    exact ⟨rfl, rfl, rfl, Or.inl rfl⟩
  | step hR hstep ih =>
    obtain ⟨ih1, ih2, ih3, ihw⟩ := ih
    cases hstep with
    | exit l₁ l₂ w hw hready hterm2 =>
      refine ⟨ih1, ih2, ih3, ?_⟩
      intro w' hw'
      rcases List.mem_append.mp hw' with hmem | hmem
      · exact ihw w' (by rw [hw]; exact List.mem_append_left _ hmem)
      · rcases List.mem_cons.mp hmem with rfl | hmem
        · have hprev := ihw w (by rw [hw]; simp)
          exact ⟨hprev.1, hprev.2.1, hprev.2.2.1, Or.inr rfl⟩
        · exact ihw w'
            (by rw [hw]; exact List.mem_append_right _ (List.mem_cons_of_mem _ hmem))
    | reserve l₁ l₂ w rt hw hready hform hlo hhi =>
      exfalso
      refine noParty_not_canForm ?_ hform
      unfold noParty
      rw [ih1, ih2, ih3]
      exact hterm
    | finish l₁ l₂ w rt hw hrun =>
      exfalso
      have hprev := ihw w (by rw [hw]; simp)
      rcases hprev.2.2.2 with hp | hp
      · rw [hrun] at hp
        exact Phase.noConfusion hp
      · rw [hrun] at hp
        exact Phase.noConfusion hp

lemma stopAll (c : Config) (k : Nat) (l₂ : List Worker) :
    ∀ l₁ : List Worker,
      (∀ w ∈ l₂, w.phase = Phase.ready) →
      noParty ⟨(c.t : Int), (c.h : Int), (c.d : Int), k, l₁ ++ l₂⟩ →
      Reachable c ⟨(c.t : Int), (c.h : Int), (c.d : Int), k, l₁ ++ l₂⟩ →
      Reachable c ⟨(c.t : Int), (c.h : Int), (c.d : Int), k,
        l₁ ++ l₂.map fun w => { w with phase := Phase.stopped }⟩ := by
  induction l₂ with
  | nil =>
    intro l₁ _ _ hreach
    simpa using hreach
  | cons w l ih =>
    intro l₁ hready hterm hreach
    have hstep : Step c ⟨(c.t : Int), (c.h : Int), (c.d : Int), k, l₁ ++ w :: l⟩
        ⟨(c.t : Int), (c.h : Int), (c.d : Int), k,
          l₁ ++ { w with phase := Phase.stopped } :: l⟩ :=
      Step.exit _ l₁ l w rfl (hready w (List.mem_cons_self w l)) hterm
    have hreach' := Reachable.step hreach hstep
    have e1 : l₁ ++ { w with phase := Phase.stopped } :: l =
        (l₁ ++ [{ w with phase := Phase.stopped }]) ++ l := by simp
    rw [e1] at hreach'
    have hres := ih (l₁ ++ [{ w with phase := Phase.stopped }])
      (fun w' hw' => hready w' (List.mem_cons_of_mem w hw')) hterm hreach'
    have e2 : (l₁ ++ [{ w with phase := Phase.stopped }]) ++
        (l.map fun w => { w with phase := Phase.stopped }) =
        l₁ ++ ((w :: l).map fun w => { w with phase := Phase.stopped }) := by
      simp
    rw [e2] at hres
    exact hres

/-- C6: for every configuration whose initial counts already satisfy the
termination condition, every reachable state keeps the queues at their
initial values and every instance at `parties_served = 0`, never active,
each worker either still at its loop head or stopped; and the state
where all `n` workers have stopped (each having formed zero parties) is
reachable. -/
theorem c6_initially_terminal (c : Config) (hterm : noParty (DState.init c)) :
    (∀ s, Reachable c s →
      s.tank_queue = (c.t : Int) ∧ s.healer_queue = (c.h : Int) ∧
      s.dps_queue = (c.d : Int) ∧
      ∀ w ∈ s.workers, w.parties_served = 0 ∧ w.is_active = false ∧
        w.total_time = 0 ∧ (w.phase = Phase.ready ∨ w.phase = Phase.stopped)) ∧
    (∃ s, Reachable c s ∧ s.workers.length = c.n ∧
      (∀ w ∈ s.workers, w.phase = Phase.stopped ∧ w.parties_served = 0) ∧
      s.tank_queue = (c.t : Int) ∧ s.healer_queue = (c.h : Int) ∧
      s.dps_queue = (c.d : Int)) := by
  refine ⟨c6_invariant c hterm, ?_⟩
  have hready : ∀ w ∈ List.replicate c.n initWorker, w.phase = Phase.ready := by
    intro w hw
    rw [List.eq_of_mem_replicate hw]
    rfl
  have hinit0 : Reachable c ⟨(c.t : Int), (c.h : Int), (c.d : Int), 0,
      ([] : List Worker) ++ List.replicate c.n initWorker⟩ := Reachable.init
  have hterm0 : noParty ⟨(c.t : Int), (c.h : Int), (c.d : Int), 0,
      ([] : List Worker) ++ List.replicate c.n initWorker⟩ := hterm
  have hreach := stopAll c 0 (List.replicate c.n initWorker) [] hready hterm0 hinit0
  refine ⟨_, hreach, ?_, ?_, rfl, rfl, rfl⟩
  · simp
  · intro w hw
    simp only [List.nil_append, List.mem_map] at hw
    obtain ⟨a, ha, rfl⟩ := hw
    rw [List.eq_of_mem_replicate ha]
    exact ⟨rfl, rfl⟩

theorem c6_witness :
    (DState.init scenarioC).tank_queue = (scenarioC.t : Int) ∧
    (DState.init scenarioC).healer_queue = (scenarioC.h : Int) ∧
    (DState.init scenarioC).dps_queue = (scenarioC.d : Int) := by
  have h := (c6_initially_terminal scenarioC (by decide)).1
    (DState.init scenarioC) Reachable.init
  exact ⟨h.1, h.2.1, h.2.2.1⟩

lemma c7step : Step cfg7 (DState.init cfg7) c7s' :=
  Step.exit (DState.init cfg7) [] [initWorker] initWorker rfl rfl (by decide)

/-- C7 counterexample: a concrete no-party exit step (worker 0 of a
two-worker pool with no tanks observes the termination condition and
stops) after which the number of `cv.notify_one()` calls is unchanged at
0: the exiting worker notified nobody before ending. -/
theorem c7_counterexample :
    Step cfg7 (DState.init cfg7) c7s' ∧
    phaseAt (DState.init cfg7) 0 = some Phase.ready ∧
    phaseAt c7s' 0 = some Phase.stopped ∧
    ¬ (DState.init cfg7).notifies < c7s'.notifies :=
  ⟨c7step, by decide, by decide, by decide⟩

/-- C7 (amended): on the no-party exit path the worker returns without
notifying anyone — every step taking a worker from `ready` to `stopped`
leaves the notify count unchanged — and `cv.notify_one()` is executed
exactly on the completed-run path (`running` back to `ready`). -/
theorem c7_no_notify_on_exit (c : Config) (s s' : DState) (i : Nat)
    (hstep : Step c s s') :
    (phaseAt s i = some Phase.ready → phaseAt s' i = some Phase.stopped →
      s'.notifies = s.notifies) ∧
    (∀ rt, phaseAt s i = some (Phase.running rt) → phaseAt s' i = some Phase.ready →
      s'.notifies = s.notifies + 1) := by
  constructor
  · intro hready hstop
    rcases phaseAt_step hstep i with hsame | ⟨_, _, _, hn⟩ | ⟨rt, _, hrun, _⟩ |
      ⟨rt, hr, _⟩
    · rw [hsame, hready] at hstop
      simp at hstop
    · exact hn
    · rw [hstop] at hrun
      simp at hrun
    · rw [hready] at hr
      simp at hr
  · intro rt hrun hready
    rcases phaseAt_step hstep i with hsame | ⟨h1, _⟩ | ⟨rt', h1, _⟩ | ⟨rt', _, _, hn⟩
    · rw [hsame, hrun] at hready
      simp at hready
    · rw [hrun] at h1
      simp at h1
    · rw [hrun] at h1
      simp at h1
    · exact hn

theorem c7_witness : c7s'.notifies = (DState.init cfg7).notifies :=
  (c7_no_notify_on_exit cfg7 (DState.init cfg7) c7s' 0 c7step).1 (by decide) (by decide)
